import Mathlib

/-!
Verification of the E/B-mode spectral decomposition engine of a weak-lensing
shear-map library (source module: lenstools/shear.py).

The development shallowly embeds the numerical pipeline:

- the frequency grids computed by numpy fftfreq and rfftfreq are exact dyadic
  rationals, embedded as functions into the rationals;
- the rotation fields sin_2_phi and cos_2_phi of ShearMap.decompose and
  ShearMap.fromEBmodes are rational-valued functions of the cell indices;
- the FFT engines rfft2 and irfft2 of numpy are embedded exactly over the
  complex numbers: rfft2 is the two-dimensional discrete Fourier transform of
  a real grid restricted to columns 0..N/2, and irfft2 is the inverse complex
  FFT along axis 0 followed by the complex-to-real inverse transform along the
  last axis, which extends its N/2+1 inputs by Hermitian symmetry and ignores
  the imaginary parts of the entries at column 0 and, for even N, column N/2
  (the documented behaviour of the numpy c2r engine);
- array shape and dtype validation of ShearMap.fromEBmodes works on a small
  array descriptor carrying the shape and a complex128 dtype flag; the shape
  test uses true division over the rationals, as the source enables with the
  division future import;
- the external azimuthal binning primitive _topology.rfft2_azimuthal is not
  part of the reviewed sources and is modelled from the spec (see its doc
  comment).

All integer index arithmetic is on the natural numbers, with explicit bounds
where the grid size matters.
-/

namespace LensTools

noncomputable section

open Finset Complex

/-! ## Frequency grids (numpy fftfreq and rfftfreq, exact rationals) -/

/-- Embedding of numpy rfftfreq: for a length-N real signal the non-negative
frequencies j/N for j = 0 .. N/2.  The source binds this array to lx. -/
def rfftfreq (N j : ℕ) : ℚ := (j : ℚ) / N

/-- Embedding of numpy fftfreq: the signed frequencies of a length-N complex
FFT, i/N for 2i < N and (i - N)/N otherwise.  The source binds this array
to ly. -/
def fftfreq (N i : ℕ) : ℚ := if 2 * i < N then (i : ℚ) / N else ((i : ℚ) - N) / N

/-! ## Rotation fields of decompose and fromEBmodes -/

/-- The squared frequency magnitude lx[j]^2 + ly[i]^2 before the DC fix. -/
def l_squared_raw (N i j : ℕ) : ℚ := rfftfreq N j ^ 2 + fftfreq N i ^ 2

/-- The array l_squared after the in-place assignment l_squared[0,0] = 1.0
performed by both decompose and fromEBmodes. -/
def l_squared (N i j : ℕ) : ℚ :=
  if i = 0 ∧ j = 0 then 1 else l_squared_raw N i j

/-- The rotation field sin_2_phi = 2 lx ly / l_squared as computed by
decompose (which applies no DC override to it). -/
def sin_2_phi (N i j : ℕ) : ℚ :=
  2 * rfftfreq N j * fftfreq N i / l_squared N i j

/-- The rotation field cos_2_phi = (lx^2 - ly^2) / l_squared as computed by
decompose (which applies no DC override to it). -/
def cos_2_phi (N i j : ℕ) : ℚ :=
  (rfftfreq N j ^ 2 - fftfreq N i ^ 2) / l_squared N i j

/-- The rotation field of fromEBmodes: same formula, followed by the in-place
assignment sin_2_phi[0,0] = 0.0. -/
def sin_2_phi_EB (N i j : ℕ) : ℚ :=
  if i = 0 ∧ j = 0 then 0 else sin_2_phi N i j

/-- The rotation field of fromEBmodes: same formula, followed by the in-place
assignment cos_2_phi[0,0] = 0.0. -/
def cos_2_phi_EB (N i j : ℕ) : ℚ :=
  if i = 0 ∧ j = 0 then 0 else cos_2_phi N i j

/-! ## Exact discrete Fourier transforms (numpy rfft2 and irfft2) -/

/-- The primitive N-th root of unity used by the FFT engines. -/
def ww (N : ℕ) : ℂ := Complex.exp (2 * Real.pi * Complex.I / N)

/-- Forward DFT along one axis with the numpy sign convention
A_k = sum_n a_n exp(-2 pi I k n / N). -/
def dft (N : ℕ) (v : ℕ → ℂ) (k : ℕ) : ℂ :=
  ∑ n ∈ Finset.range N, v n * ww N ^ (-((k : ℤ) * (n : ℤ)))

/-- Inverse DFT along one axis with the numpy convention
a_n = (1/N) sum_k A_k exp(2 pi I k n / N). -/
def idft (N : ℕ) (v : ℕ → ℂ) (n : ℕ) : ℂ :=
  (N : ℂ)⁻¹ * ∑ k ∈ Finset.range N, v k * ww N ^ ((k : ℤ) * (n : ℤ))

/-- The Hermitian extension a length-N/2+1 spectrum undergoes inside the numpy
c2r engine: entries at 0 and (for even N) at N/2 have their imaginary part
ignored, and entries above N/2 are conjugate mirrors of the given ones. -/
def hermExtend (N : ℕ) (z : ℕ → ℂ) (k : ℕ) : ℂ :=
  if 2 * k < N then (if k = 0 then ((z 0).re : ℂ) else z k)
  else (if 2 * k = N then ((z k).re : ℂ) else (starRingEnd ℂ) (z (N - k)))

/-- Embedding of numpy irfft on one row: real output of the inverse DFT of
the Hermitian extension of the N/2+1 given spectrum entries. -/
def irfft1 (N : ℕ) (z : ℕ → ℂ) (n : ℕ) : ℝ :=
  (idft N (hermExtend N z) n).re

/-- Embedding of numpy rfft2 applied to a real N x N grid: rfft along the last
axis followed by a full complex fft along axis 0; only columns 0 .. N/2 of the
result are materialised. -/
def rfft2 (N : ℕ) (g : ℕ → ℕ → ℝ) (i j : ℕ) : ℂ :=
  dft N (fun m => dft N (fun n => ((g m n : ℝ) : ℂ)) j) i

/-- Embedding of numpy irfft2 applied to an N x (N/2+1) complex grid: full
complex inverse fft along axis 0 followed by irfft along the last axis. -/
def irfft2 (N : ℕ) (F : ℕ → ℕ → ℂ) (m n : ℕ) : ℝ :=
  irfft1 N (fun j => idft N (fun i => F i j) m) n

/-! ## The spin-2 rotation of fromEBmodes and decompose -/

/-- The Fourier shear component ft_gamma1 = cos_2_phi * E - sin_2_phi * B
built by fromEBmodes from given E and B mode fields. -/
def ft_gamma1 (N : ℕ) (E B : ℕ → ℕ → ℂ) (i j : ℕ) : ℂ :=
  (cos_2_phi_EB N i j : ℂ) * E i j - (sin_2_phi_EB N i j : ℂ) * B i j

/-- The Fourier shear component ft_gamma2 = sin_2_phi * E + cos_2_phi * B
built by fromEBmodes from given E and B mode fields. -/
def ft_gamma2 (N : ℕ) (E B : ℕ → ℕ → ℂ) (i j : ℕ) : ℂ :=
  (sin_2_phi_EB N i j : ℂ) * E i j + (cos_2_phi_EB N i j : ℂ) * B i j

/-- The explicit zeroing of the DC cell performed by decompose on ft_E and
ft_B after the rotation. -/
def dcZero (F : ℕ → ℕ → ℂ) (i j : ℕ) : ℂ :=
  if i = 0 ∧ j = 0 then 0 else F i j

/-- The E-mode Fourier field computed by decompose from the two real shear
components: ft_E = cos_2_phi * rfft2 gamma1 + sin_2_phi * rfft2 gamma2,
followed by ft_E[0,0] = 0. -/
def decompose_ftE (N : ℕ) (g1 g2 : ℕ → ℕ → ℝ) : ℕ → ℕ → ℂ :=
  dcZero (fun i j =>
    (cos_2_phi N i j : ℂ) * rfft2 N g1 i j + (sin_2_phi N i j : ℂ) * rfft2 N g2 i j)

/-- The B-mode Fourier field computed by decompose:
ft_B = -1.0 * sin_2_phi * rfft2 gamma1 + cos_2_phi * rfft2 gamma2, followed by
ft_B[0,0] = 0. -/
def decompose_ftB (N : ℕ) (g1 g2 : ℕ → ℕ → ℝ) : ℕ → ℕ → ℂ :=
  dcZero (fun i j =>
    (-1 : ℂ) * (sin_2_phi N i j : ℂ) * rfft2 N g1 i j + (cos_2_phi N i j : ℂ) * rfft2 N g2 i j)

/-- The E mode recovered by running decompose on the real shear grids that
fromEBmodes builds from the Fourier fields E and B: the round trip of the
spec. -/
def roundE (N : ℕ) (E B : ℕ → ℕ → ℂ) : ℕ → ℕ → ℂ :=
  decompose_ftE N (irfft2 N (ft_gamma1 N E B)) (irfft2 N (ft_gamma2 N E B))

/-- The B mode recovered by the same round trip. -/
def roundB (N : ℕ) (E B : ℕ → ℕ → ℂ) : ℕ → ℕ → ℂ :=
  decompose_ftB N (irfft2 N (ft_gamma1 N E B)) (irfft2 N (ft_gamma2 N E B))

/-! ## The azimuthal binning primitive and the multipole bin centers -/

/-- The signed integer FFT frequency of row i, in cycles per full side:
i for 2i < N and i - N otherwise (this is N times fftfreq). -/
def fyInt (N i : ℕ) : ℤ := if 2 * i < N then (i : ℤ) else (i : ℤ) - N

/-- Modelled from the spec: the multipole assigned to Fourier cell (i,j),
the wavenumber magnitude converted to multipole units using the side angle in
degrees, with one multipole pixel worth 360/angle. -/
def cellMultipole (N : ℕ) (angleDeg : ℝ) (i j : ℕ) : ℝ :=
  (360 / angleDeg) * Real.sqrt ((j : ℝ) ^ 2 + ((fyInt N i : ℤ) : ℝ) ^ 2)

/-- Modelled from the spec: the set of Fourier grid cells whose multipole
falls inside the half-open bin [edges[k], edges[k+1]). -/
def binCells (N : ℕ) (angleDeg : ℝ) (edges : List ℝ) (k : ℕ) : Finset (ℕ × ℕ) :=
  (Finset.range N ×ˢ Finset.range (N / 2 + 1)).filter
    (fun p => edges.getD k 0 ≤ cellMultipole N angleDeg p.1 p.2 ∧
      cellMultipole N angleDeg p.1 p.2 < edges.getD (k + 1) 0)

/-- Modelled from the spec: the external binning primitive
_topology.rfft2_azimuthal, whose C implementation is not part of the reviewed
sources.  Per the spec it returns, for bin k, the mean of
Re(A * conj B) over the Fourier cells whose multipole falls in
[edges[k], edges[k+1]), normalised by the solid angle of the map and the
pixel count.  An empty bin is a reporting sentinel in the spec (NaN); the
embedding returns 0 there, which none of the verified claims depends on. -/
def rfft2_azimuthal (N : ℕ) (A B : ℕ → ℕ → ℂ) (angleDeg : ℝ)
    (edges : List ℝ) (k : ℕ) : ℝ :=
  if (binCells N angleDeg edges k).card = 0 then 0
  else ((angleDeg * Real.pi / 180) ^ 2 / (N : ℝ) ^ 4) *
    (∑ p ∈ binCells N angleDeg edges k, (A p.1 p.2 * (starRingEnd ℂ) (B p.1 p.2)).re) /
    (binCells N angleDeg edges k).card

/-- The multipole bin centers computed by decompose:
l = 0.5 * (l_edges[:-1] + l_edges[1:]). -/
def midpointList (es : List ℝ) : List ℝ :=
  List.zipWith (fun a b => 0.5 * (a + b)) es.dropLast es.tail

/-! ## The ShearMap object and its public operations -/

/-- The state of a ShearMap object: the two real shear grids with their size,
the side angle in degrees, and the optionally cached Fourier E and B modes
(present exactly when the object has the fourier_E and fourier_B
attributes). -/
structure ShearMapS where
  N : ℕ
  gamma1 : ℕ → ℕ → ℝ
  gamma2 : ℕ → ℕ → ℝ
  angleDeg : ℝ
  fourier : Option ((ℕ → ℕ → ℂ) × (ℕ → ℕ → ℂ))

/-- A ConvergenceMap as far as this engine is concerned: a real grid and the
side angle it inherits. -/
structure ConvergenceMapS where
  data : ℕ → ℕ → ℝ
  angleDeg : ℝ

/-- The computation performed by ShearMap.decompose: Fourier transform the two
shear components, rotate into ft_E and ft_B, zero the DC cells, bin the three
spectra with the external primitive, and cache the Fourier fields when
keep_fourier is set.  Returns the (l, P_EE, P_BB, P_EB) tuple together with
the updated object. -/
def ShearMapS.decomposeCore (s : ShearMapS) (l_edges : List ℝ)
    (keep_fourier : Bool) :
    (List ℝ × (ℕ → ℝ) × (ℕ → ℝ) × (ℕ → ℝ)) × ShearMapS :=
  let ftE := decompose_ftE s.N s.gamma1 s.gamma2
  let ftB := decompose_ftB s.N s.gamma1 s.gamma2
  ((midpointList l_edges,
    rfft2_azimuthal s.N ftE ftE s.angleDeg l_edges,
    rfft2_azimuthal s.N ftB ftB s.angleDeg l_edges,
    rfft2_azimuthal s.N ftE ftB s.angleDeg l_edges),
   if keep_fourier then { s with fourier := some (ftE, ftB) } else s)

/-- The ShearMap.decompose method itself.  Its only possible failure mode in
the source is an AssertionError, and every assert in its body is a shape
self-consistency check (len(lx) against the rfft2 output shape, ft_E.shape
against ft_B.shape) that holds identically in this embedding; no statement in
the method examines l_edges before handing it to the binning primitive.  The
Option result models the possibility of raising: the body never selects
none. -/
def ShearMapS.decompose (s : ShearMapS) (l_edges : List ℝ)
    (keep_fourier : Bool) :
    Option ((List ℝ × (ℕ → ℝ) × (ℕ → ℝ) × (ℕ → ℝ)) × ShearMapS) :=
  some (s.decomposeCore l_edges keep_fourier)

/-- The ShearMap.convergence method: when no Fourier E mode is cached it first
runs one decomposition with the internal default bin edges [200, 400] and
keep_fourier set (the decompose asserts cannot fire, see
ShearMapS.decompose), then inverse transforms the cached E mode alone and
wraps it with the side angle of the map.  The getD default is unreachable:
after the conditional the cache is always populated. -/
def ShearMapS.convergence (s : ShearMapS) : ConvergenceMapS × ShearMapS :=
  let s' := if s.fourier.isNone then (s.decomposeCore [200, 400] true).2 else s
  (⟨irfft2 s'.N (s'.fourier.getD (fun _ _ => 0, fun _ _ => 0)).1, s'.angleDeg⟩, s')

/-! ## The fromEBmodes constructor and its input validation -/

/-- A descriptor of a two-dimensional numpy array as far as the fromEBmodes
asserts are concerned: its shape and whether its dtype is complex128,
together with its entries. -/
structure NPArray2 where
  rows : ℕ
  cols : ℕ
  isComplex128 : Bool
  data : ℕ → ℕ → ℂ

/-- The assert conditions at the top of ShearMap.fromEBmodes, in source
order: both dtypes are complex128, each shape satisfies
shape[1] == shape[0]/2 + 1 under true division (the module activates the
division future import), and the two shapes coincide. -/
def fromEBvalid (E B : NPArray2) : Bool :=
  E.isComplex128 && B.isComplex128 &&
  decide ((E.cols : ℚ) = (E.rows : ℚ) / 2 + 1) &&
  decide ((B.cols : ℚ) = (B.rows : ℚ) / 2 + 1) &&
  (decide (E.rows = B.rows) && decide (E.cols = B.cols))

/-- The ShearMap.fromEBmodes constructor: validate, rotate the E and B fields
into the two Fourier shear components, inverse transform them to real space,
and return the new map with the given fields cached as fourier_E and
fourier_B.  A failing assert is none: no partial result exists. -/
def fromEBmodes (E B : NPArray2) (angleDeg : ℝ) : Option ShearMapS :=
  if fromEBvalid E B then
    some { N := E.rows,
           gamma1 := irfft2 E.rows (ft_gamma1 E.rows E.data B.data),
           gamma2 := irfft2 E.rows (ft_gamma2 E.rows E.data B.data),
           angleDeg := angleDeg,
           fourier := some (E.data, B.data) }
  else none

/-! ## Concrete inputs used by witnesses and counterexamples -/

/-- A 2 x 2 shear map of zeros with no cached Fourier modes. -/
def zeroMap2 : ShearMapS :=
  ⟨2, fun _ _ => 0, fun _ _ => 0, 1, none⟩

/-- The everywhere-zero Fourier field. -/
def zeroField : ℕ → ℕ → ℂ := fun _ _ => 0

/-- A 2 x 2 complex E field whose only nonzero entry sits at cell (1,0) of
column 0 and is purely imaginary, so it violates the Hermitian symmetry that
column 0 of a real-field spectrum satisfies. -/
def Eimag2 : ℕ → ℕ → ℂ := fun i j => if i = 1 ∧ j = 0 then Complex.I else 0

/-- A 4 x 3 complex E field whose only nonzero entry is a 1 at cell (1,2) of
the Nyquist column, violating the Hermitian symmetry of that column. -/
def Eny4 : ℕ → ℕ → ℂ := fun i j => if i = 1 ∧ j = 2 then 1 else 0

/-! ## Root-of-unity facts -/

lemma ww_ne_zero (N : ℕ) : ww N ≠ 0 := Complex.exp_ne_zero _

lemma ww_isPrimitiveRoot (N : ℕ) (hN : N ≠ 0) : IsPrimitiveRoot (ww N) N :=
  Complex.isPrimitiveRoot_exp N hN

lemma ww_conj (N : ℕ) : (starRingEnd ℂ) (ww N) = (ww N)⁻¹ := by
  unfold ww
  rw [← Complex.exp_conj, ← Complex.exp_neg]
  congr 1
  simp only [map_div₀, map_mul, Complex.conj_I, Complex.conj_ofReal, map_natCast,
    Complex.conj_ofNat, neg_mul, mul_neg, neg_div, neg_neg]

lemma ww_conj_zpow (N : ℕ) (m : ℤ) :
    (starRingEnd ℂ) (ww N ^ m) = ww N ^ (-m) := by
  rw [map_zpow₀, ww_conj, inv_zpow, zpow_neg]

/-- Orthogonality of the FFT characters: the geometric sum of the k-th power
of the primitive root over one period is N when N divides k and 0
otherwise. -/
lemma sum_ww_zpow (N : ℕ) (hN : N ≠ 0) (k : ℤ) :
    ∑ n ∈ Finset.range N, ww N ^ (k * (n : ℤ)) =
      if (N : ℤ) ∣ k then (N : ℂ) else 0 := by
  have hprim := ww_isPrimitiveRoot N hN
  have hx : ∀ n ∈ Finset.range N, ww N ^ (k * (n : ℤ)) = (ww N ^ k) ^ n := by
    intro n _
    rw [zpow_mul, zpow_natCast]
  rw [Finset.sum_congr rfl hx]
  by_cases hdvd : (N : ℤ) ∣ k
  · have h1 : ww N ^ k = 1 := (hprim.zpow_eq_one_iff_dvd k).mpr hdvd
    simp [h1, hdvd]
  · have h1 : ww N ^ k ≠ 1 := fun h => hdvd ((hprim.zpow_eq_one_iff_dvd k).mp h)
    rw [geom_sum_eq h1]
    have h2 : (ww N ^ k) ^ N = 1 := by
      rw [← zpow_natCast (ww N ^ k) N, ← zpow_mul, mul_comm, zpow_mul,
        zpow_natCast, hprim.pow_eq_one, one_zpow]
    rw [h2]
    simp [hdvd]

/-- Divisibility in a short window: two indices below N congruent modulo N
are equal. -/
lemma eq_of_dvd_sub (N a b : ℕ) (ha : a < N) (hb : b < N)
    (h : (N : ℤ) ∣ (a : ℤ) - (b : ℤ)) : a = b := by
  have habs : |(a : ℤ) - (b : ℤ)| < N := abs_lt.mpr ⟨by omega, by omega⟩
  have h0 : (a : ℤ) - (b : ℤ) = 0 := Int.eq_zero_of_abs_lt_dvd h habs
  omega

/-- Divisibility in a double window: a sum of two indices below N divisible
by N is 0 or N. -/
lemma sum_eq_zero_or_N (N a b : ℕ) (ha : a < N) (hb : b < N)
    (h : (N : ℤ) ∣ (a : ℤ) + (b : ℤ)) : a + b = 0 ∨ a + b = N := by
  have h2 : (N : ℤ) ∣ ((a + b : ℕ) : ℤ) := by push_cast; exact h
  have h3 : N ∣ a + b := Int.ofNat_dvd.mp h2
  rcases Nat.lt_or_ge (a + b) N with hlt | hge
  · exact Or.inl (Nat.eq_zero_of_dvd_of_lt h3 hlt)
  · right
    have h4 : N ∣ a + b - N := (Nat.dvd_sub' h3 dvd_rfl)
    have h5 : a + b - N < N := by omega
    have h6 : a + b - N = 0 := Nat.eq_zero_of_dvd_of_lt h4 h5
    omega

/-! ## DFT inversion -/

/-- Fourier inversion: the forward DFT of the inverse DFT returns the input at
every index below N. -/
lemma dft_idft (N : ℕ) (hN : N ≠ 0) (v : ℕ → ℂ) (j : ℕ) (hj : j < N) :
    dft N (idft N v) j = v j := by
  unfold dft idft
  have step : ∀ n ∈ Finset.range N,
      ((N : ℂ)⁻¹ * ∑ k ∈ Finset.range N, v k * ww N ^ ((k : ℤ) * (n : ℤ))) *
        ww N ^ (-((j : ℤ) * (n : ℤ))) =
      (N : ℂ)⁻¹ * ∑ k ∈ Finset.range N, v k * ww N ^ (((k : ℤ) - (j : ℤ)) * (n : ℤ)) := by
    intro n _
    rw [mul_assoc, Finset.sum_mul]
    congr 1
    refine Finset.sum_congr rfl fun k _ => ?_
    rw [mul_assoc, ← zpow_add₀ (ww_ne_zero N)]
    congr 2
    ring
  rw [Finset.sum_congr rfl step, ← Finset.mul_sum, Finset.sum_comm]
  have inner : ∀ k ∈ Finset.range N,
      ∑ n ∈ Finset.range N, v k * ww N ^ (((k : ℤ) - (j : ℤ)) * (n : ℤ)) =
      v k * (if (N : ℤ) ∣ (k : ℤ) - (j : ℤ) then (N : ℂ) else 0) := by
    intro k _
    rw [← Finset.mul_sum, sum_ww_zpow N hN]
  rw [Finset.sum_congr rfl inner]
  rw [Finset.sum_eq_single j]
  · have h0 : ((j : ℤ) - (j : ℤ)) = 0 := by ring
    rw [h0, if_pos (dvd_zero _)]
    have hNC : (N : ℂ) ≠ 0 := Nat.cast_ne_zero.mpr hN
    field_simp
  · intro k hk hkj
    have : ¬ (N : ℤ) ∣ (k : ℤ) - (j : ℤ) := by
      intro hdvd
      exact hkj (eq_of_dvd_sub N k j (Finset.mem_range.mp hk) hj hdvd)
    simp [this]
  · intro hj2
    exact absurd (Finset.mem_range.mpr hj) hj2

/-- Companion inversion identity: the forward DFT of the complex conjugate of
the inverse DFT reads the input at the mirrored index. -/
lemma dft_conj_idft (N : ℕ) (hN : N ≠ 0) (v : ℕ → ℂ) (j : ℕ) (hj : j < N) :
    dft N (fun n => (starRingEnd ℂ) (idft N v n)) j =
      (starRingEnd ℂ) (v ((N - j) % N)) := by
  unfold dft idft
  have step : ∀ n ∈ Finset.range N,
      (starRingEnd ℂ) ((N : ℂ)⁻¹ * ∑ k ∈ Finset.range N, v k * ww N ^ ((k : ℤ) * (n : ℤ))) *
        ww N ^ (-((j : ℤ) * (n : ℤ))) =
      (N : ℂ)⁻¹ * ∑ k ∈ Finset.range N,
        (starRingEnd ℂ) (v k) * ww N ^ (-(((k : ℤ) + (j : ℤ)) * (n : ℤ))) := by
    intro n _
    rw [map_mul, map_inv₀, map_natCast, map_sum, mul_assoc, Finset.sum_mul]
    congr 1
    refine Finset.sum_congr rfl fun k _ => ?_
    rw [map_mul, ww_conj_zpow, mul_assoc, ← zpow_add₀ (ww_ne_zero N)]
    congr 2
    ring
  rw [Finset.sum_congr rfl step, ← Finset.mul_sum, Finset.sum_comm]
  have inner : ∀ k ∈ Finset.range N,
      ∑ n ∈ Finset.range N,
        (starRingEnd ℂ) (v k) * ww N ^ (-(((k : ℤ) + (j : ℤ)) * (n : ℤ))) =
      (starRingEnd ℂ) (v k) *
        (if (N : ℤ) ∣ (k : ℤ) + (j : ℤ) then (N : ℂ) else 0) := by
    intro k _
    have : ∀ n : ℕ, (-(((k : ℤ) + (j : ℤ)) * (n : ℤ))) = (-(((k : ℤ) + (j : ℤ)))) * (n : ℤ) := by
      intro n; ring
    simp only [this]
    rw [← Finset.mul_sum, sum_ww_zpow N hN]
    simp only [dvd_neg]
  rw [Finset.sum_congr rfl inner]
  have hNpos : 0 < N := Nat.pos_of_ne_zero hN
  have hk0lt : (N - j) % N < N := Nat.mod_lt _ hNpos
  rw [Finset.sum_eq_single ((N - j) % N)]
  · have hdvd : (N : ℤ) ∣ ((N - j) % N : ℕ) + (j : ℤ) := by
      rcases Nat.eq_zero_or_pos j with hj0 | hj0
      · subst hj0
        simp
      · have h1 : N - j < N := by omega
        rw [Nat.mod_eq_of_lt h1]
        have : ((N - j : ℕ) : ℤ) + (j : ℤ) = (N : ℤ) := by
          omega
        rw [this]
    rw [if_pos hdvd]
    have hNC : (N : ℂ) ≠ 0 := Nat.cast_ne_zero.mpr hN
    field_simp
  · intro k hk hkj
    have hkN : k < N := Finset.mem_range.mp hk
    have : ¬ (N : ℤ) ∣ (k : ℤ) + (j : ℤ) := by
      intro hdvd
      rcases sum_eq_zero_or_N N k j hkN hj hdvd with h0 | h0
      · have hkj0 : k = 0 ∧ j = 0 := by omega
        apply hkj
        rw [hkj0.1, hkj0.2]
        simp
      · apply hkj
        have hkNj : k = N - j := by omega
        rw [hkNj, Nat.mod_eq_of_lt (by omega)]
    simp [this]
  · intro habs
    exact absurd (Finset.mem_range.mpr hk0lt) habs

/-! ## Composition of the real FFT engines -/

/-- Linearity helper: the DFT of a pointwise average of two signals. -/
lemma dft_add_half (N : ℕ) (a b : ℕ → ℂ) (j : ℕ) :
    dft N (fun n => (a n + b n) / 2) j = (dft N a j + dft N b j) / 2 := by
  unfold dft
  rw [← Finset.sum_add_distrib, Finset.sum_div]
  refine Finset.sum_congr rfl fun n _ => ?_
  ring

/-- The numpy round trip rfft of irfft on one axis: entries at columns
0 < j < N/2 come back unchanged, while the columns 0 and N/2 lose their
imaginary part. -/
lemma dft_irfft1 (N : ℕ) (hN : 0 < N) (z : ℕ → ℂ) (j : ℕ) (hj : 2 * j ≤ N) :
    dft N (fun n => ((irfft1 N z n : ℝ) : ℂ)) j =
      if j = 0 ∨ 2 * j = N then (((z j).re : ℝ) : ℂ) else z j := by
  have hjN : j < N := by omega
  have hcoe : (fun n => ((irfft1 N z n : ℝ) : ℂ)) =
      fun n => (idft N (hermExtend N z) n +
        (starRingEnd ℂ) (idft N (hermExtend N z) n)) / 2 := by
    funext n
    unfold irfft1
    rw [Complex.add_conj]
    push_cast
    ring
  rw [hcoe, dft_add_half, dft_idft N (by omega) _ j hjN,
    dft_conj_idft N (by omega) _ j hjN]
  by_cases hj0 : j = 0
  · subst hj0
    simp only [Nat.sub_zero, Nat.mod_self]
    have h0 : hermExtend N z 0 = (((z 0).re : ℝ) : ℂ) := by
      unfold hermExtend
      simp [hN]
    rw [h0, Complex.conj_ofReal, if_pos (Or.inl trivial)]
    ring
  · by_cases hjh : 2 * j = N
    · have hsub : N - j = j := by omega
      have hmod : (N - j) % N = j := by
        rw [hsub, Nat.mod_eq_of_lt hjN]
      have h0 : hermExtend N z j = (((z j).re : ℝ) : ℂ) := by
        unfold hermExtend
        rw [if_neg (by omega), if_pos hjh]
      rw [hmod, h0, Complex.conj_ofReal]
      rw [if_pos (Or.inr hjh)]
      norm_num
    · have hjlt : 2 * j < N := by omega
      have hj1 : 1 ≤ j := by omega
      have hmod : (N - j) % N = N - j := Nat.mod_eq_of_lt (by omega)
      have h0 : hermExtend N z j = z j := by
        unfold hermExtend
        rw [if_pos hjlt, if_neg hj0]
      have h1 : hermExtend N z (N - j) = (starRingEnd ℂ) (z j) := by
        unfold hermExtend
        rw [if_neg (by omega), if_neg (by omega)]
        congr 2
        omega
      rw [hmod, h0, h1, RingHomInvPair.comp_apply_eq]
      rw [if_neg (by push_neg; exact ⟨hj0, hjh⟩)]
      ring

/-- Composition law of the numpy real-FFT engines: running rfft2 after
irfft2 is the identity on the interior columns 0 < j < N/2, and on columns 0
and N/2 it replaces the field by its Hermitian symmetrisation along the rows,
(F[i,j] + conj F[(N-i) mod N, j]) / 2. -/
theorem rfft2_irfft2 (N : ℕ) (hN : 0 < N) (F : ℕ → ℕ → ℂ) (i j : ℕ)
    (hi : i < N) (hj : 2 * j ≤ N) :
    rfft2 N (irfft2 N F) i j =
      if j = 0 ∨ 2 * j = N then
        (F i j + (starRingEnd ℂ) (F ((N - i) % N) j)) / 2
      else F i j := by
  have hNz : N ≠ 0 := by omega
  have hrow : ∀ m : ℕ,
      dft N (fun n => ((irfft2 N F m n : ℝ) : ℂ)) j =
      if j = 0 ∨ 2 * j = N then
        ((((idft N (fun i2 => F i2 j) m).re : ℝ) : ℂ)) else idft N (fun i2 => F i2 j) m := by
    intro m
    have := dft_irfft1 N hN (fun j2 => idft N (fun i2 => F i2 j2) m) j hj
    unfold irfft2 at *
    exact this
  unfold rfft2
  rw [show (fun m => dft N (fun n => ((irfft2 N F m n : ℝ) : ℂ)) j) =
      fun m => (if j = 0 ∨ 2 * j = N then
        ((((idft N (fun i2 => F i2 j) m).re : ℝ) : ℂ)) else idft N (fun i2 => F i2 j) m) from
      funext hrow]
  by_cases hsp : j = 0 ∨ 2 * j = N
  · simp only [hsp, if_pos]
    have hcoe : (fun m => (((idft N (fun i2 => F i2 j) m).re : ℝ) : ℂ)) =
        fun m => (idft N (fun i2 => F i2 j) m +
          (starRingEnd ℂ) (idft N (fun i2 => F i2 j) m)) / 2 := by
      funext m
      rw [Complex.add_conj]
      push_cast
      ring
    rw [hcoe, dft_add_half, dft_idft N hNz _ i hi, dft_conj_idft N hNz _ i hi]
  · simp only [hsp, if_neg, if_false]
    exact dft_idft N hNz _ i hi

/-! ## Rotation-field facts -/

lemma rfftfreq_zero (N : ℕ) : rfftfreq N 0 = 0 := by
  unfold rfftfreq
  simp

lemma fftfreq_zero (N : ℕ) : fftfreq N 0 = 0 := by
  unfold fftfreq
  split
  · simp
  · have hN : N = 0 := by omega
    subst hN
    norm_num

lemma sin_2_phi_dc (N : ℕ) : sin_2_phi N 0 0 = 0 := by
  unfold sin_2_phi
  rw [rfftfreq_zero]
  simp

lemma cos_2_phi_dc (N : ℕ) : cos_2_phi N 0 0 = 0 := by
  unfold cos_2_phi
  rw [rfftfreq_zero, fftfreq_zero]
  simp

lemma sin_2_phi_EB_eq (N i j : ℕ) : sin_2_phi_EB N i j = sin_2_phi N i j := by
  unfold sin_2_phi_EB
  split
  · rename_i hdc
    rw [hdc.1, hdc.2, sin_2_phi_dc]
  · rfl

lemma cos_2_phi_EB_eq (N i j : ℕ) : cos_2_phi_EB N i j = cos_2_phi N i j := by
  unfold cos_2_phi_EB
  split
  · rename_i hdc
    rw [hdc.1, hdc.2, cos_2_phi_dc]
  · rfl

lemma rfftfreq_pos (N j : ℕ) (hj : j ≠ 0) (hN : 0 < N) : 0 < rfftfreq N j := by
  unfold rfftfreq
  have h1 : (0 : ℚ) < (j : ℚ) := by exact_mod_cast Nat.pos_of_ne_zero hj
  have h2 : (0 : ℚ) < (N : ℚ) := by exact_mod_cast hN
  positivity

lemma fftfreq_ne_zero (N i : ℕ) (hi0 : i ≠ 0) (hiN : i < N) : fftfreq N i ≠ 0 := by
  unfold fftfreq
  have h2 : (0 : ℚ) < (N : ℚ) := by exact_mod_cast Nat.pos_of_ne_zero (by omega)
  split
  · have h1 : (0 : ℚ) < (i : ℚ) := by exact_mod_cast Nat.pos_of_ne_zero hi0
    positivity
  · have h1 : (i : ℚ) - N < 0 := by
      have : (i : ℚ) < N := by exact_mod_cast hiN
      linarith
    exact div_ne_zero (ne_of_lt h1) (ne_of_gt h2)

lemma l_squared_raw_pos (N i j : ℕ) (hi : i < N) (h : ¬(i = 0 ∧ j = 0)) :
    0 < l_squared_raw N i j := by
  unfold l_squared_raw
  by_cases hj : j = 0
  · have hi0 : i ≠ 0 := fun h0 => h ⟨h0, hj⟩
    have h1 : fftfreq N i ≠ 0 := fftfreq_ne_zero N i hi0 hi
    have h2 : 0 < fftfreq N i ^ 2 :=
      lt_of_le_of_ne (sq_nonneg _) (Ne.symm (pow_ne_zero 2 h1))
    nlinarith [sq_nonneg (rfftfreq N j)]
  · have h1 : 0 < rfftfreq N j := rfftfreq_pos N j hj (by omega)
    nlinarith [sq_nonneg (fftfreq N i)]

lemma l_squared_ne_dc (N i j : ℕ) (h : ¬(i = 0 ∧ j = 0)) :
    l_squared N i j = l_squared_raw N i j := by
  unfold l_squared
  rw [if_neg h]

/-- Pointwise orthogonality of the rotation at every non-DC cell. -/
lemma cos_sq_add_sin_sq (N i j : ℕ) (hi : i < N) (h : ¬(i = 0 ∧ j = 0)) :
    cos_2_phi N i j ^ 2 + sin_2_phi N i j ^ 2 = 1 := by
  have hpos := l_squared_raw_pos N i j hi h
  unfold cos_2_phi sin_2_phi
  rw [l_squared_ne_dc N i j h]
  unfold l_squared_raw at hpos ⊢
  field_simp
  ring

/-- The first column of the rotation: sin_2_phi vanishes there because
lx[0] = 0. -/
lemma sin_2_phi_col0 (N i : ℕ) : sin_2_phi N i 0 = 0 := by
  unfold sin_2_phi
  rw [rfftfreq_zero]
  simp

lemma sin_2_phi_EB_col0 (N i : ℕ) : sin_2_phi_EB N i 0 = 0 := by
  rw [sin_2_phi_EB_eq, sin_2_phi_col0]

/-! ## Bin-center list facts -/

lemma midpointList_length (es : List ℝ) : (midpointList es).length = es.length - 1 := by
  unfold midpointList
  simp [List.length_zipWith, List.length_dropLast, List.length_tail]

lemma midpointList_cons (a b : ℝ) (t : List ℝ) :
    midpointList (a :: b :: t) = (0.5 * (a + b)) :: midpointList (b :: t) := by
  unfold midpointList
  simp [List.dropLast]

lemma midpointList_getD (es : List ℝ) (k : ℕ) (h : k + 1 < es.length) :
    (midpointList es).getD k 0 = 0.5 * (es.getD k 0 + es.getD (k + 1) 0) := by
  induction es generalizing k with
  | nil => simp at h
  | cons a t ih =>
    cases t with
    | nil => simp at h
    | cons b t2 =>
      rw [midpointList_cons]
      cases k with
      | zero => simp [List.getD]
      | succ k2 =>
        have h2 : k2 + 1 < (b :: t2).length := by
          simp at h ⊢
          omega
        simpa using ih k2 h2

/-! ## Claim theorems: rotation grid, DC zeroing, bin centers, validation -/

/-- C3: for every input shear field the decomposed Fourier fields have an
exactly zero DC cell, regardless of the mean values of gamma1 and gamma2. -/
theorem claim_C3_dc_zeroing (N : ℕ) (g1 g2 : ℕ → ℕ → ℝ) :
    decompose_ftE N g1 g2 0 0 = 0 ∧ decompose_ftB N g1 g2 0 0 = 0 := by
  constructor <;> simp [decompose_ftE, decompose_ftB, dcZero]

/-- C4: the rotation fields used by the forward transform (decompose) and the
inverse transform (fromEBmodes) agree and satisfy, at every cell,
sin2phi = 2 fx fy / l2 and cos2phi = (fx^2 - fy^2)/l2 with l2 = fx^2 + fy^2
except l2[0,0] = 1, and the DC cell carries zero rotation in both. -/
theorem claim_C4_rotation_fields (N i j : ℕ) :
    sin_2_phi N i j = 2 * rfftfreq N j * fftfreq N i / l_squared N i j ∧
    cos_2_phi N i j = (rfftfreq N j ^ 2 - fftfreq N i ^ 2) / l_squared N i j ∧
    l_squared N i j = (if i = 0 ∧ j = 0 then 1 else rfftfreq N j ^ 2 + fftfreq N i ^ 2) ∧
    sin_2_phi_EB N i j = sin_2_phi N i j ∧
    cos_2_phi_EB N i j = cos_2_phi N i j ∧
    sin_2_phi N 0 0 = 0 ∧ cos_2_phi N 0 0 = 0 ∧
    sin_2_phi_EB N 0 0 = 0 ∧ cos_2_phi_EB N 0 0 = 0 := by
  refine ⟨rfl, rfl, ?_, sin_2_phi_EB_eq N i j, cos_2_phi_EB_eq N i j,
    sin_2_phi_dc N, cos_2_phi_dc N, ?_, ?_⟩
  · unfold l_squared l_squared_raw
    rfl
  · rw [sin_2_phi_EB_eq, sin_2_phi_dc]
  · rw [cos_2_phi_EB_eq, cos_2_phi_dc]

/-- C7: the rotation matrix is orthogonal at every non-DC cell:
cos2phi^2 + sin2phi^2 = 1 for all (i,j) with a valid row index other than
the DC cell. -/
theorem claim_C7_orthogonality (N i j : ℕ) (hi : i < N) (h : ¬(i = 0 ∧ j = 0)) :
    cos_2_phi N i j ^ 2 + sin_2_phi N i j ^ 2 = 1 :=
  cos_sq_add_sin_sq N i j hi h

theorem claim_C7_witness :
    1 < 2 ∧ ¬((1 : ℕ) = 0 ∧ (0 : ℕ) = 0) ∧
      cos_2_phi 2 1 0 ^ 2 + sin_2_phi 2 1 0 ^ 2 = 1 :=
  ⟨by decide, by decide, claim_C7_orthogonality 2 1 0 (by decide) (by decide)⟩

/-- C9: the multipole array returned by decompose has one entry per bin and
each entry is the midpoint of its bin edges. -/
theorem claim_C9_bin_centers (s : ShearMapS) (es : List ℝ) (keep : Bool) :
    ((s.decomposeCore es keep).1.1).length = es.length - 1 ∧
    ∀ k, k + 1 < es.length →
      ((s.decomposeCore es keep).1.1).getD k 0 = 0.5 * (es.getD k 0 + es.getD (k + 1) 0) := by
  have h1 : (s.decomposeCore es keep).1.1 = midpointList es := rfl
  rw [h1]
  exact ⟨midpointList_length es, fun k hk => midpointList_getD es k hk⟩

theorem claim_C9_witness :
    (0 + 1 < ([1, 3, 7] : List ℝ).length) ∧
    ((zeroMap2.decomposeCore [1, 3, 7] false).1.1).getD 0 0 = 0.5 * ((1 : ℝ) + 3) := by
  refine ⟨by simp, ?_⟩
  have h := (claim_C9_bin_centers zeroMap2 [1, 3, 7] false).2 0 (by simp)
  simpa using h

/-- C5: fromEBmodes rejects non-complex dtypes, non real-FFT shapes and
mismatched shapes outright: the result is none, no partial result exists. -/
theorem claim_C5_fromEB_validation (E B : NPArray2) (a : ℝ)
    (h : E.isComplex128 = false ∨ B.isComplex128 = false ∨
      (E.cols : ℚ) ≠ (E.rows : ℚ) / 2 + 1 ∨ (B.cols : ℚ) ≠ (B.rows : ℚ) / 2 + 1 ∨
      ¬(E.rows = B.rows ∧ E.cols = B.cols)) :
    fromEBmodes E B a = none := by
  have hval : ¬ (fromEBvalid E B = true) := by
    intro habs
    unfold fromEBvalid at habs
    simp only [Bool.and_eq_true, decide_eq_true_eq] at habs
    obtain ⟨⟨⟨⟨hE, hB⟩, hcE⟩, hcB⟩, hrr, hcc⟩ := habs
    rcases h with h | h | h | h | h
    · rw [h] at hE
      exact absurd hE (by decide)
    · rw [h] at hB
      exact absurd hB (by decide)
    · exact h hcE
    · exact h hcB
    · exact h ⟨hrr, hcc⟩
  unfold fromEBmodes
  rw [if_neg hval]

def arrE44 : NPArray2 := ⟨4, 4, true, fun _ _ => 0⟩

def arrB43 : NPArray2 := ⟨4, 3, true, fun _ _ => 0⟩

theorem claim_C5_witness :
    ¬(arrE44.rows = arrB43.rows ∧ arrE44.cols = arrB43.cols) ∧
    fromEBmodes arrE44 arrB43 1 = none :=
  ⟨by decide,
   claim_C5_fromEB_validation arrE44 arrB43 1
     (Or.inr (Or.inr (Or.inr (Or.inr (by decide)))))⟩

/-- C10: the true-division shape test of fromEBmodes can only accept an even
first dimension, so every pair with odd N is rejected, including the
well-formed odd real-FFT layout (N, (N+1)/2). -/
theorem claim_C10_odd_rows_rejected (E B : NPArray2) (a : ℝ) (h : E.rows % 2 = 1) :
    fromEBmodes E B a = none := by
  have hval : ¬ (fromEBvalid E B = true) := by
    intro habs
    unfold fromEBvalid at habs
    simp only [Bool.and_eq_true, decide_eq_true_eq] at habs
    obtain ⟨⟨⟨⟨hE, hB⟩, hcE⟩, hcB⟩, hrr, hcc⟩ := habs
    have h2 : (2 : ℚ) * E.cols = E.rows + 2 := by
      field_simp at hcE
      linarith
    have h3 : ((2 * E.cols : ℕ) : ℚ) = ((E.rows + 2 : ℕ) : ℚ) := by
      push_cast
      linarith
    have h4 : 2 * E.cols = E.rows + 2 := Nat.cast_injective h3
    omega
  unfold fromEBmodes
  rw [if_neg hval]

def arrOdd : NPArray2 := ⟨3, 2, true, fun _ _ => 0⟩

theorem claim_C10_witness :
    arrOdd.rows % 2 = 1 ∧ fromEBmodes arrOdd arrOdd 1 = none :=
  ⟨by decide, claim_C10_odd_rows_rejected arrOdd arrOdd 1 (by decide)⟩

/-! ## Claim theorems: decompose never validates bin edges (C2) -/

/-- C2 counterexample: a single bin edge (fewer than 2) is not rejected:
decompose completes normally, so the claimed ConfigurationError does not
exist in the code. -/
theorem claim_C2_counterexample :
    (([5] : List ℝ).length < 2) ∧ zeroMap2.decompose [5] false ≠ none := by
  constructor
  · simp
  · simp [ShearMapS.decompose]

/-- C2 amended: decompose applies no validation at all to the bin-edge
sequence; for every sequence, including one with fewer than two edges or a
non-increasing one, it completes normally and hands exactly the given edges
to the binning primitive. -/
theorem claim_C2_amended (s : ShearMapS) (es : List ℝ) (keep : Bool) :
    s.decompose es keep ≠ none ∧
    (s.decompose es keep).map (fun r => r.1.2.2.1) =
      some (rfft2_azimuthal s.N (decompose_ftB s.N s.gamma1 s.gamma2)
        (decompose_ftB s.N s.gamma1 s.gamma2) s.angleDeg es) := by
  constructor
  · simp [ShearMapS.decompose]
  · rfl

/-! ## Claim theorem: convergence (C6) -/

/-- C6: on a shear field with no cached E mode, convergence populates the
cache through one decomposition with the internal default edges [200, 400],
returns the inverse real FFT of the cached E mode alone (the B mode does not
contribute), and carries the side angle of the shear field. -/
theorem claim_C6_convergence (s : ShearMapS) (h : s.fourier = none) :
    (s.convergence).1.data = irfft2 s.N (decompose_ftE s.N s.gamma1 s.gamma2) ∧
    (s.convergence).1.angleDeg = s.angleDeg ∧
    (s.convergence).2 = (s.decomposeCore [200, 400] true).2 ∧
    (s.convergence).2.fourier = some (decompose_ftE s.N s.gamma1 s.gamma2,
      decompose_ftB s.N s.gamma1 s.gamma2) := by
  refine ⟨?_, ?_, ?_, ?_⟩ <;>
    simp [ShearMapS.convergence, ShearMapS.decomposeCore, h]

theorem claim_C6_witness :
    zeroMap2.fourier = none ∧
    (zeroMap2.convergence).1.data =
      irfft2 zeroMap2.N (decompose_ftE zeroMap2.N zeroMap2.gamma1 zeroMap2.gamma2) :=
  ⟨rfl, (claim_C6_convergence zeroMap2 rfl).1⟩

/-! ## Claim theorems: the round trip (C1) -/

/-- C1 counterexample: the round trip is not the identity away from the DC
cell for every complex field of real-FFT shape.  The field Eimag2 puts the
purely imaginary value I at cell (1,0); the code returns 0 there, because the
c2r engine discards the part of column 0 that violates Hermitian symmetry. -/
theorem claim_C1_counterexample :
    ¬ (roundE 2 Eimag2 zeroField 1 0 = Eimag2 1 0) := by
  have hE : Eimag2 1 0 = Complex.I := by simp [Eimag2]
  have hceb : cos_2_phi_EB 2 1 0 = -1 := by
    rw [cos_2_phi_EB_eq]
    norm_num [cos_2_phi, l_squared, l_squared_raw, rfftfreq, fftfreq]
  have hseb : sin_2_phi_EB 2 1 0 = 0 := sin_2_phi_EB_col0 2 1
  have hs : sin_2_phi 2 1 0 = 0 := sin_2_phi_col0 2 1
  have h0 : roundE 2 Eimag2 zeroField 1 0 = 0 := by
    unfold roundE decompose_ftE dcZero
    rw [if_neg (by simp)]
    dsimp only
    rw [rfft2_irfft2 2 (by norm_num) (ft_gamma1 2 Eimag2 zeroField) 1 0
        (by norm_num) (by norm_num),
      rfft2_irfft2 2 (by norm_num) (ft_gamma2 2 Eimag2 zeroField) 1 0
        (by norm_num) (by norm_num),
      if_pos (Or.inl rfl), if_pos (Or.inl rfl)]
    have h1 : ft_gamma1 2 Eimag2 zeroField 1 0 = -Complex.I := by
      unfold ft_gamma1
      rw [hceb, hseb]
      simp [Eimag2, zeroField]
    have h2 : (2 - 1) % 2 = 1 := by norm_num
    rw [h2, h1, hs]
    simp [Complex.conj_I]
  rw [h0, hE]
  exact fun habs => Complex.I_ne_zero habs.symm

/-- C1 amended: the round trip from_E_B then decompose reproduces (E, B) at
every non-DC cell, and gives 0 at the DC cell, provided the two derived
Fourier shear fields cos2phi E - sin2phi B and sin2phi E + cos2phi B are
Hermitian-symmetric along the rows of columns 0 and N/2 (which holds exactly
when (E, B) comes from a real shear field, i.e. satisfies the full real-FFT
contract); for fields violating that symmetry the round trip projects them
(see the counterexample). -/
theorem claim_C1_roundtrip (N : ℕ) (hN : 0 < N) (E B : ℕ → ℕ → ℂ)
    (hH1 : ∀ j, (j = 0 ∨ 2 * j = N) → ∀ i, i < N →
      ft_gamma1 N E B ((N - i) % N) j = (starRingEnd ℂ) (ft_gamma1 N E B i j))
    (hH2 : ∀ j, (j = 0 ∨ 2 * j = N) → ∀ i, i < N →
      ft_gamma2 N E B ((N - i) % N) j = (starRingEnd ℂ) (ft_gamma2 N E B i j))
    (i j : ℕ) (hi : i < N) (hj : 2 * j ≤ N) :
    roundE N E B i j = (if i = 0 ∧ j = 0 then 0 else E i j) ∧
    roundB N E B i j = (if i = 0 ∧ j = 0 then 0 else B i j) := by
  by_cases hdc : i = 0 ∧ j = 0
  · rw [if_pos hdc, if_pos hdc]
    unfold roundE roundB decompose_ftE decompose_ftB dcZero
    rw [if_pos hdc, if_pos hdc]
    exact ⟨rfl, rfl⟩
  · rw [if_neg hdc, if_neg hdc]
    have hG1 : rfft2 N (irfft2 N (ft_gamma1 N E B)) i j = ft_gamma1 N E B i j := by
      rw [rfft2_irfft2 N hN _ i j hi hj]
      by_cases hsp : j = 0 ∨ 2 * j = N
      · rw [if_pos hsp, hH1 j hsp i hi, Complex.conj_conj]
        ring
      · rw [if_neg hsp]
    have hG2 : rfft2 N (irfft2 N (ft_gamma2 N E B)) i j = ft_gamma2 N E B i j := by
      rw [rfft2_irfft2 N hN _ i j hi hj]
      by_cases hsp : j = 0 ∨ 2 * j = N
      · rw [if_pos hsp, hH2 j hsp i hi, Complex.conj_conj]
        ring
      · rw [if_neg hsp]
    have hcs : cos_2_phi N i j ^ 2 + sin_2_phi N i j ^ 2 = 1 :=
      cos_sq_add_sin_sq N i j hi hdc
    have hcsC : ((cos_2_phi N i j : ℚ) : ℂ) ^ 2 + ((sin_2_phi N i j : ℚ) : ℂ) ^ 2 = 1 := by
      exact_mod_cast congrArg (fun q : ℚ => (q : ℂ)) hcs
    constructor
    · unfold roundE decompose_ftE dcZero
      rw [if_neg hdc]
      dsimp only
      rw [hG1, hG2]
      unfold ft_gamma1 ft_gamma2
      rw [cos_2_phi_EB_eq, sin_2_phi_EB_eq]
      linear_combination (E i j) * hcsC
    · unfold roundB decompose_ftB dcZero
      rw [if_neg hdc]
      dsimp only
      rw [hG1, hG2]
      unfold ft_gamma1 ft_gamma2
      rw [cos_2_phi_EB_eq, sin_2_phi_EB_eq]
      linear_combination (B i j) * hcsC

theorem claim_C1_witness :
    (0 < 2) ∧ (1 < 2) ∧ (2 * 0 ≤ 2) ∧
    roundE 2 zeroField zeroField 1 0 =
      (if (1 : ℕ) = 0 ∧ (0 : ℕ) = 0 then 0 else zeroField 1 0) := by
  refine ⟨by decide, by decide, by decide, ?_⟩
  exact (claim_C1_roundtrip 2 (by decide) zeroField zeroField
    (by intro j hsp i hi; simp [ft_gamma1, zeroField])
    (by intro j hsp i hi; simp [ft_gamma2, zeroField])
    1 0 (by decide) (by decide)).1

/-! ## Claim theorems: pure-E fields and the B-mode power (C8) -/

/-- When the given E field vanishes on the Nyquist column, the B mode
recovered by decompose after from_E_B(E, 0) is identically zero on the
Fourier grid. -/
lemma roundB_zeroB_vanishes (N : ℕ) (hN : 0 < N) (E : ℕ → ℕ → ℂ)
    (hNy : ∀ i, E i (N / 2) = 0) (i j : ℕ) (hi : i < N) (hj : 2 * j ≤ N) :
    roundB N E zeroField i j = 0 := by
  by_cases hdc : i = 0 ∧ j = 0
  · unfold roundB decompose_ftB dcZero
    rw [if_pos hdc]
  · unfold roundB decompose_ftB dcZero
    rw [if_neg hdc]
    dsimp only
    rw [rfft2_irfft2 N hN _ i j hi hj, rfft2_irfft2 N hN _ i j hi hj]
    by_cases hj0 : j = 0
    · subst hj0
      rw [if_pos (Or.inl rfl), if_pos (Or.inl rfl)]
      have hf2 : ∀ m, ft_gamma2 N E zeroField m 0 = 0 := by
        intro m
        unfold ft_gamma2
        rw [sin_2_phi_EB_col0]
        simp [zeroField]
      have hs : sin_2_phi N i 0 = 0 := sin_2_phi_col0 N i
      rw [hs, hf2, hf2]
      simp
    · by_cases hjN : 2 * j = N
      · rw [if_pos (Or.inr hjN), if_pos (Or.inr hjN)]
        have hjval : j = N / 2 := by omega
        have hf1 : ∀ m, ft_gamma1 N E zeroField m j = 0 := by
          intro m
          unfold ft_gamma1
          rw [hjval, hNy m]
          simp [zeroField]
        have hf2 : ∀ m, ft_gamma2 N E zeroField m j = 0 := by
          intro m
          unfold ft_gamma2
          rw [hjval, hNy m]
          simp [zeroField]
        rw [hf1, hf1, hf2, hf2]
        simp
      · rw [if_neg (by tauto), if_neg (by tauto)]
        unfold ft_gamma1 ft_gamma2
        rw [cos_2_phi_EB_eq, sin_2_phi_EB_eq]
        simp only [zeroField]
        ring

/-- The binning primitive returns exactly zero whenever its second field
vanishes on the whole Fourier grid. -/
lemma rfft2_azimuthal_zero_right (N : ℕ) (A B : ℕ → ℕ → ℂ) (angleDeg : ℝ)
    (edges : List ℝ) (k : ℕ)
    (hB : ∀ p, p ∈ (Finset.range N ×ˢ Finset.range (N / 2 + 1)) → B p.1 p.2 = 0) :
    rfft2_azimuthal N A B angleDeg edges k = 0 := by
  unfold rfft2_azimuthal
  have hsum : ∑ p ∈ binCells N angleDeg edges k,
      (A p.1 p.2 * (starRingEnd ℂ) (B p.1 p.2)).re = 0 := by
    apply Finset.sum_eq_zero
    intro p hp
    have hp2 : p ∈ Finset.range N ×ˢ Finset.range (N / 2 + 1) := by
      unfold binCells at hp
      exact (Finset.mem_filter.mp hp).1
    rw [hB p hp2]
    simp
  rw [hsum]
  split
  · rfl
  · simp

/-- C8 amended: constructing a shear field via from_E_B(E, B = 0) from an E
field that vanishes on the Nyquist column and decomposing it yields exactly
zero P_BB and P_EB in every bin.  For an arbitrary complex E field this
fails: the Nyquist column of the reconstructed B mode picks up the part of E
that violates Hermitian symmetry (see the counterexample). -/
theorem claim_C8_pureE (N : ℕ) (hN : 0 < N) (E : ℕ → ℕ → ℂ)
    (hNy : ∀ i, E i (N / 2) = 0) (angleDeg : ℝ) (edges : List ℝ) (k : ℕ) :
    rfft2_azimuthal N (roundB N E zeroField) (roundB N E zeroField) angleDeg edges k = 0 ∧
    rfft2_azimuthal N (roundE N E zeroField) (roundB N E zeroField) angleDeg edges k = 0 := by
  have hz : ∀ p, p ∈ (Finset.range N ×ˢ Finset.range (N / 2 + 1)) →
      roundB N E zeroField p.1 p.2 = 0 := by
    intro p hp
    rw [Finset.mem_product, Finset.mem_range, Finset.mem_range] at hp
    exact roundB_zeroB_vanishes N hN E hNy p.1 p.2 hp.1 (by omega)
  exact ⟨rfft2_azimuthal_zero_right N _ _ angleDeg edges k hz,
         rfft2_azimuthal_zero_right N _ _ angleDeg edges k hz⟩

theorem claim_C8_witness :
    (0 < 2) ∧ (∀ i, zeroField i (2 / 2) = 0) ∧
    rfft2_azimuthal 2 (roundB 2 zeroField zeroField) (roundB 2 zeroField zeroField)
      360 [0, 10] 0 = 0 :=
  ⟨by decide, fun _ => rfl,
   (claim_C8_pureE 2 (by decide) zeroField (fun _ => rfl) 360 [0, 10] 0).1⟩

/-- The concrete value of the spurious B mode at cell (3,2) of the 4 x 3
grid for the pure-E input Eny4. -/
lemma roundB_Eny4_val : roundB 4 Eny4 zeroField 3 2 = ((12 / 25 : ℚ) : ℂ) := by
  have hceb1 : cos_2_phi_EB 4 1 2 = 3 / 5 := by
    rw [cos_2_phi_EB_eq]
    norm_num [cos_2_phi, l_squared, l_squared_raw, rfftfreq, fftfreq]
  have hseb1 : sin_2_phi_EB 4 1 2 = 4 / 5 := by
    rw [sin_2_phi_EB_eq]
    norm_num [sin_2_phi, l_squared, l_squared_raw, rfftfreq, fftfreq]
  have hc32 : cos_2_phi 4 3 2 = 3 / 5 := by
    norm_num [cos_2_phi, l_squared, l_squared_raw, rfftfreq, fftfreq]
  have hs32 : sin_2_phi 4 3 2 = -4 / 5 := by
    norm_num [sin_2_phi, l_squared, l_squared_raw, rfftfreq, fftfreq]
  unfold roundB decompose_ftB dcZero
  rw [if_neg (by simp)]
  dsimp only
  rw [rfft2_irfft2 4 (by norm_num) (ft_gamma1 4 Eny4 zeroField) 3 2
      (by norm_num) (by norm_num),
    rfft2_irfft2 4 (by norm_num) (ft_gamma2 4 Eny4 zeroField) 3 2
      (by norm_num) (by norm_num),
    if_pos (Or.inr (by norm_num)), if_pos (Or.inr (by norm_num))]
  have hmod : (4 - 3) % 4 = 1 := by norm_num
  rw [hmod]
  have hf1a : ft_gamma1 4 Eny4 zeroField 3 2 = 0 := by
    unfold ft_gamma1
    simp [Eny4, zeroField]
  have hf1b : ft_gamma1 4 Eny4 zeroField 1 2 = ((3 / 5 : ℚ) : ℂ) := by
    unfold ft_gamma1
    rw [hceb1, hseb1]
    simp [Eny4, zeroField]
  have hf2a : ft_gamma2 4 Eny4 zeroField 3 2 = 0 := by
    unfold ft_gamma2
    simp [Eny4, zeroField]
  have hf2b : ft_gamma2 4 Eny4 zeroField 1 2 = ((4 / 5 : ℚ) : ℂ) := by
    unfold ft_gamma2
    rw [hceb1, hseb1]
    simp [Eny4, zeroField]
  rw [hf1a, hf1b, hf2a, hf2b, hc32, hs32]
  push_cast
  simp only [map_div₀, Complex.conj_ofNat]
  norm_num

/-- The cell (3,2) of the 4 x 3 grid lies in the single bin [0, 10) when the
side angle is 360 degrees: its multipole is sqrt 5. -/
lemma mem_binCells_32 : ((3, 2) : ℕ × ℕ) ∈ binCells 4 360 [0, 10] 0 := by
  unfold binCells
  rw [Finset.mem_filter]
  refine ⟨?_, ?_, ?_⟩
  · rw [Finset.mem_product]
    constructor <;> simp
  · have h0 : [(0 : ℝ), 10].getD 0 0 = 0 := rfl
    rw [h0]
    unfold cellMultipole
    positivity
  · have h1 : [(0 : ℝ), 10].getD 1 0 = 10 := rfl
    have hcell : cellMultipole 4 360 3 2 = Real.sqrt 5 := by
      unfold cellMultipole fyInt
      norm_num
    rw [h1, hcell]
    exact (Real.sqrt_lt' (by norm_num : (0 : ℝ) < 10)).mpr (by norm_num)

/-- C8 counterexample: for the shape-valid complex field Eny4 (a single 1 at
cell (1,2) of the Nyquist column) the B-mode auto power of the round trip is
nonzero in the bin [0, 10), refuting the claim for arbitrary complex E
fields. -/
theorem claim_C8_counterexample :
    rfft2_azimuthal 4 (roundB 4 Eny4 zeroField) (roundB 4 Eny4 zeroField)
      360 [0, 10] 0 ≠ 0 := by
  have hval := roundB_Eny4_val
  have hmem := mem_binCells_32
  have hcard : ¬ ((binCells 4 360 [0, 10] 0).card = 0) := by
    intro habs
    rw [Finset.card_eq_zero] at habs
    rw [habs] at hmem
    exact absurd hmem (Finset.not_mem_empty _)
  have hterm_nonneg : ∀ p ∈ binCells 4 360 [0, 10] 0,
      0 ≤ (roundB 4 Eny4 zeroField p.1 p.2 *
        (starRingEnd ℂ) (roundB 4 Eny4 zeroField p.1 p.2)).re := by
    intro p _
    rw [Complex.mul_conj, Complex.ofReal_re]
    exact Complex.normSq_nonneg _
  have hterm_pos : 0 < (roundB 4 Eny4 zeroField 3 2 *
      (starRingEnd ℂ) (roundB 4 Eny4 zeroField 3 2)).re := by
    rw [hval, Complex.mul_conj, Complex.ofReal_re]
    apply Complex.normSq_pos.mpr
    rw [Ne, Rat.cast_eq_zero]
    norm_num
  have hsum : 0 < ∑ p ∈ binCells 4 360 [0, 10] 0,
      (roundB 4 Eny4 zeroField p.1 p.2 *
        (starRingEnd ℂ) (roundB 4 Eny4 zeroField p.1 p.2)).re :=
    Finset.sum_pos' hterm_nonneg ⟨(3, 2), hmem, hterm_pos⟩
  unfold rfft2_azimuthal
  rw [if_neg hcard]
  apply ne_of_gt
  apply div_pos
  · apply mul_pos
    · have hpi := Real.pi_pos
      positivity
    · exact hsum
  · exact_mod_cast Nat.pos_of_ne_zero hcard

end

end LensTools
